import Mathlib

/-!
Shallow embedding of `src/dcmex/process_opc.py` (the `main` function of the
ncas-opc-1 CSV → netCDF conversion script) and proofs about it.

Modelling conventions:
* A CSV cell is `Option ℚ`: `none` models a missing value (pandas `NaN`);
  machine floats are modelled by exact rationals, since every claim is about
  the structure of the arithmetic (division by 1000, shifting of header
  values), not about rounding.
* A timestamp is `Option Nat`: `none` models `NaT`, `some t` models `t`
  seconds since the Unix epoch, UTC.  The UTC calendar date of an epoch
  second `t` is the epoch day `t / 86400`.
* A parsed table is the list of non-timestamp column headers (already parsed
  to numbers, as `df_day.columns[1:].values.astype(float)` does) together
  with the list of rows.
-/

namespace ProcessOpc

/-- One parsed CSV row: the `Datetime` cell and the reading cells. -/
structure Row where
  timestamp : Option Nat
  readings  : List (Option ℚ)
deriving DecidableEq, Repr

/-- A parsed table: the non-timestamp column headers (parsed as numbers) and
the data rows.  Every row is read with one cell per non-timestamp column. -/
structure Table where
  cols : List ℚ
  rows : List Row
deriving DecidableEq, Repr

/-- `True` iff every cell of the row, the timestamp included, is missing:
the rows dropped by `df.dropna(how='all')` (line 23). -/
def allValuesAbsent (r : Row) : Bool :=
  r.timestamp.isNone && r.readings.all Option.isNone

/-- `True` iff every reading cell (the timestamp excluded) is missing: the
rows dropped by `df.dropna(subset=df.columns[1:], how='all')` (line 26). -/
def allReadingsAbsent (r : Row) : Bool :=
  r.readings.all Option.isNone

/-- The loader's two drop passes, in the order the source applies them
(lines 23 and 26): first drop rows with every value absent, then drop rows
with every reading absent. -/
def loadRows (rows : List Row) : List Row :=
  (rows.filter (fun r => !allValuesAbsent r)).filter (fun r => !allReadingsAbsent r)

/-- The UTC calendar date (epoch day) of a row's timestamp; `none` for a
missing timestamp.  Models `df.iloc[:,0].dt.date` on one row. -/
def rowDate (r : Row) : Option Nat :=
  r.timestamp.map (fun t => t / 86400)

/-- First-occurrence deduplication, as pandas `Series.unique()` orders its
result.  `seen` accumulates the values already emitted. -/
def uniquesAcc (seen : List Nat) : List Nat → List Nat
  | [] => []
  | a :: l => if a ∈ seen then uniquesAcc seen l else a :: uniquesAcc (a :: seen) l

/-- The distinct values of a list in order of first appearance. -/
def uniques (l : List Nat) : List Nat := uniquesAcc [] l

/-- The distinct epoch days among the rows' timestamps, in order of first
appearance: models `df.iloc[:,0].dt.date.unique()` (line 29) on rows whose
timestamps are present. -/
def dayDates (rows : List Row) : List Nat :=
  uniques (rows.filterMap rowDate)

/-- The rows of one day: models `df[df.iloc[:,0].dt.date == date]`
(line 32). -/
def dayRows (rows : List Row) (d : Nat) : List Row :=
  rows.filter (fun r => rowDate r == some d)

/-- The day group as a table: the filter keeps the column structure. -/
def dayTable (t : Table) (d : Nat) : Table :=
  ⟨t.cols, dayRows t.rows d⟩

theorem mem_uniquesAcc {x : Nat} :
    ∀ (l seen : List Nat), x ∈ uniquesAcc seen l ↔ x ∈ l ∧ x ∉ seen := by
  intro l
  induction l with
  | nil => intro seen; simp [uniquesAcc]
  | cons a l ih =>
      intro seen
      by_cases ha : a ∈ seen
      · simp only [uniquesAcc, if_pos ha, ih, List.mem_cons]
        constructor
        · rintro ⟨hx, hns⟩; exact ⟨Or.inr hx, hns⟩
        · rintro ⟨hx, hns⟩
          rcases hx with rfl | hx
          · exact absurd ha hns
          · exact ⟨hx, hns⟩
      · simp only [uniquesAcc, if_neg ha, List.mem_cons, ih, not_or]
        constructor
        · rintro (rfl | ⟨hx, hns⟩)
          · exact ⟨Or.inl rfl, ha⟩
          · rcases hns with ⟨hxa, hxs⟩
            exact ⟨Or.inr hx, hxs⟩
        · rintro ⟨rfl | hx, hns⟩
          · exact Or.inl rfl
          · by_cases hxa : x = a
            · exact Or.inl hxa
            · exact Or.inr ⟨hx, hxa, hns⟩

theorem mem_uniques {x : Nat} {l : List Nat} : x ∈ uniques l ↔ x ∈ l := by
  simp [uniques, mem_uniquesAcc]

theorem nodup_uniquesAcc : ∀ (l seen : List Nat), (uniquesAcc seen l).Nodup := by
  intro l
  induction l with
  | nil => intro seen; simp [uniquesAcc]
  | cons a l ih =>
      intro seen
      by_cases ha : a ∈ seen
      · simpa [uniquesAcc, if_pos ha] using ih seen
      · simp only [uniquesAcc, if_neg ha, List.nodup_cons]
        refine ⟨fun hc => ?_, ih (a :: seen)⟩
        exact ((mem_uniquesAcc l (a :: seen)).mp hc).2 (List.mem_cons_self a seen)

theorem nodup_uniques (l : List Nat) : (uniques l).Nodup := nodup_uniquesAcc l []

/-- The lower-limit matrix (line 47): `np.array([cols]*len(unix_times))`,
the parsed non-timestamp headers repeated once per retained row. -/
def lower_limits (cols : List ℚ) (nrows : Nat) : List (List ℚ) :=
  List.replicate nrows cols

/-- One row of the upper-limit matrix (line 50): the headers shifted one to
the left (`df_day.columns[2:]`) with `32` appended as the last value. -/
def upperRow (cols : List ℚ) : List ℚ :=
  cols.drop 1 ++ [32]

/-- The upper-limit matrix (line 50): the shifted header row repeated once
per retained row. -/
def upper_limits (cols : List ℚ) (nrows : Nat) : List (List ℚ) :=
  List.replicate nrows (upperRow cols)

/-- The concentration matrix (line 44): `df_day.iloc[:,1:].values/1000`,
every reading cell divided by 1000, with `NaN` (`none`) propagated. -/
def concentration (rows : List Row) : List (List (Option ℚ)) :=
  rows.map (fun r => r.readings.map (Option.map (fun v => v / 1000)))

/-- C3: the loader applies exactly the two drop passes of lines 23 and 26 in
that order; a row survives iff it is a row of the input, not all of its
values (timestamp included) are absent, and not all of its readings are
absent.  In particular a row with a present timestamp and at least one
present reading is always retained. -/
theorem loader_two_drop_passes (rows : List Row) :
    (loadRows rows =
      (rows.filter (fun r => !allValuesAbsent r)).filter
        (fun r => !allReadingsAbsent r)) ∧
    (∀ r, r ∈ loadRows rows ↔
      r ∈ rows ∧ allValuesAbsent r = false ∧ allReadingsAbsent r = false) ∧
    (∀ r, r ∈ rows → r.timestamp.isSome = true →
      (∃ v ∈ r.readings, v.isSome = true) → r ∈ loadRows rows) := by
  refine ⟨rfl, ?_, ?_⟩
  · intro r
    simp only [loadRows, List.mem_filter, Bool.not_eq_eq_eq_not, Bool.not_true]
    tauto
  · intro r hr hts ⟨v, hv, hvs⟩
    have hra : allReadingsAbsent r = false := by
      simp only [allReadingsAbsent]
      rw [List.all_eq_false]
      exact ⟨v, hv, by simp [Option.isNone, Option.isSome] at hvs ⊢ <;> cases v <;> simp_all⟩
    have hva : allValuesAbsent r = false := by
      simp only [allValuesAbsent, Bool.and_eq_false_iff]
      left
      cases h : r.timestamp with
      | none => rw [h] at hts; simp at hts
      | some t => simp [h]
    simp only [loadRows, List.mem_filter, hva, hra]
    simp [hr]

/-- C10: a row whose timestamp is absent but which has at least one present
reading passes both drop passes: it is retained by the loader. -/
theorem missing_timestamp_row_retained (rows : List Row) (r : Row)
    (hr : r ∈ rows) (ht : r.timestamp = none)
    (hv : ∃ v ∈ r.readings, v.isSome = true) :
    r ∈ loadRows rows := by
  obtain ⟨v, hvm, hvs⟩ := hv
  have hra : allReadingsAbsent r = false := by
    simp only [allReadingsAbsent]
    rw [List.all_eq_false]
    exact ⟨v, hvm, by cases v <;> simp_all⟩
  have hva : allValuesAbsent r = false := by
    simp only [allValuesAbsent, allReadingsAbsent] at hra ⊢
    simp [hra]
  simp only [loadRows, List.mem_filter, hva, hra]
  simp [hr]

/-- Witness for `missing_timestamp_row_retained` at a concrete row with no
timestamp and one present reading. -/
theorem missing_timestamp_row_retained_witness :
    (⟨none, [some 1, none]⟩ : Row) ∈ loadRows [⟨none, [some 1, none]⟩] :=
  missing_timestamp_row_retained [⟨none, [some 1, none]⟩] ⟨none, [some 1, none]⟩
    (by simp) rfl ⟨some 1, by simp⟩

/-- C4: for a table whose rows all carry a timestamp, the day groups of
line 32, taken over the unique dates of line 29, cover every row, never
share a row, keep the within-day row order (each group is a sublist of the
table's rows), and keep the column structure unchanged. -/
theorem day_partition (t : Table)
    (hts : ∀ r ∈ t.rows, (r.timestamp).isSome = true) :
    (∀ r ∈ t.rows, ∃ d ∈ dayDates t.rows, r ∈ (dayTable t d).rows) ∧
    (∀ d1 d2 r, d1 ≠ d2 → r ∈ (dayTable t d1).rows → r ∉ (dayTable t d2).rows) ∧
    (∀ d, (dayTable t d).rows.Sublist t.rows) ∧
    (∀ d, (dayTable t d).cols = t.cols) := by
  refine ⟨?_, ?_, fun d => List.filter_sublist t.rows, fun d => rfl⟩
  · intro r hr
    obtain ⟨t0, ht0⟩ := Option.isSome_iff_exists.mp (hts r hr)
    refine ⟨t0 / 86400, ?_, ?_⟩
    · rw [dayDates, mem_uniques, List.mem_filterMap]
      exact ⟨r, hr, by simp [rowDate, ht0]⟩
    · simp only [dayTable, dayRows, List.mem_filter]
      exact ⟨hr, by simp [rowDate, ht0]⟩
  · intro d1 d2 r hne h1 h2
    simp only [dayTable, dayRows, List.mem_filter, beq_iff_eq] at h1 h2
    exact hne (Option.some_injective _ (h1.2.symm.trans h2.2))

/-- Witness for `day_partition`: one row on epoch day 0 lands in a group. -/
theorem day_partition_witness :
    ∃ d ∈ dayDates [⟨some 60, [some 1]⟩],
      (⟨some 60, [some 1]⟩ : Row) ∈ (dayTable ⟨[1], [⟨some 60, [some 1]⟩]⟩ d).rows :=
  (day_partition ⟨[1], [⟨some 60, [some 1]⟩]⟩
      (by intro r hr; simp at hr; subst hr; rfl)).1
    ⟨some 60, [some 1]⟩ (by simp)

/-- C1: for a day group with `n ≥ 1` non-timestamp columns, the channel set
has exactly `n` channels; channel `i`'s upper bound equals channel `i+1`'s
lower bound (the parsed header of column `i+2`) for every `i < n-1`; the
last channel's upper bound is `32`; and both bound matrices repeat the same
per-channel row on every one of the day's rows. -/
theorem channel_bounds (cols : List ℚ) (nrows : Nat)
    (h1 : 1 ≤ cols.length) :
    (upperRow cols).length = cols.length ∧
    (∀ i, i + 1 < cols.length → (upperRow cols).getD i 0 = cols.getD (i + 1) 0) ∧
    (upperRow cols).getD (cols.length - 1) 0 = 32 ∧
    (∀ row ∈ lower_limits cols nrows, row = cols) ∧
    (∀ row ∈ upper_limits cols nrows, row = upperRow cols) ∧
    (lower_limits cols nrows).length = nrows ∧
    (upper_limits cols nrows).length = nrows := by
  have hlen : (upperRow cols).length = cols.length := by
    simp only [upperRow, List.length_append, List.length_drop, List.length_singleton]
    omega
  refine ⟨hlen, ?_, ?_, fun row hrow => List.eq_of_mem_replicate hrow,
    fun row hrow => List.eq_of_mem_replicate hrow,
    List.length_replicate nrows cols, List.length_replicate nrows (upperRow cols)⟩
  · intro i hi
    have hdrop : i < (cols.drop 1).length := by
      simp only [List.length_drop]; omega
    rw [List.getD_eq_getElem?_getD, List.getD_eq_getElem?_getD, upperRow,
      List.getElem?_append_left hdrop, List.getElem?_drop, Nat.add_comm 1 i]
  · have hge : (cols.drop 1).length ≤ cols.length - 1 := by
      simp [List.length_drop]
    rw [List.getD_eq_getElem?_getD, upperRow, List.getElem?_append_right hge]
    simp [List.length_drop, Nat.sub_self]

/-- Witness for `channel_bounds` at the spec's example header row
`[0.3, 0.5, 1.0]`: the last channel's upper bound is `32`. -/
theorem channel_bounds_witness :
    (upperRow [(3 : ℚ)/10, 5/10, 1]).getD (([(3 : ℚ)/10, 5/10, 1].length) - 1) 0 = 32 :=
  (channel_bounds [(3 : ℚ)/10, 5/10, 1] 2 (by simp)).2.2.1

/-- C2: the value written for row `i`, channel `j` is the input reading at
that cell divided by 1000; a missing reading stays missing and in
particular is never turned into `0`. -/
theorem concentration_scaling (rows : List Row) (i j : Nat)
    (hi : i < rows.length)
    (hj : j < (rows.getD i ⟨none, []⟩).readings.length) :
    ((concentration rows).getD i []).getD j none
      = ((rows.getD i ⟨none, []⟩).readings.getD j none).map (fun v => v / 1000) ∧
    ((rows.getD i ⟨none, []⟩).readings.getD j none = none →
      ((concentration rows).getD i []).getD j none = none ∧
      ∀ q : ℚ, ((concentration rows).getD i []).getD j none ≠ some q) := by
  have hrow : (concentration rows).getD i []
      = ((rows.getD i ⟨none, []⟩).readings.map (Option.map (fun v => v / 1000))) := by
    rw [concentration, List.getD_eq_getElem?_getD, List.getElem?_map,
      List.getElem?_eq_getElem hi, List.getD_eq_getElem?_getD,
      List.getElem?_eq_getElem hi]
    rfl
  have hcell : ((concentration rows).getD i []).getD j none
      = ((rows.getD i ⟨none, []⟩).readings.getD j none).map (fun v => v / 1000) := by
    have key : ∀ (l : List (Option ℚ)), j < l.length →
        (l.map (Option.map (fun v : ℚ => v / 1000))).getD j none
          = (l.getD j none).map (fun v => v / 1000) := by
      intro l hl
      rw [List.getD_eq_getElem?_getD, List.getD_eq_getElem?_getD,
        List.getElem?_map, List.getElem?_eq_getElem hl]
      rfl
    rw [hrow]
    exact key _ hj
  refine ⟨hcell, fun hnone => ?_⟩
  rw [hcell, hnone]
  simp

/-- Witness for `concentration_scaling`: a concrete table with one missing
cell, evaluated at that cell. -/
theorem concentration_scaling_witness :
    ((concentration [⟨some 0, [none, some 2000]⟩]).getD 0 []).getD 0 none
      = ((([(⟨some 0, [none, some 2000]⟩ : Row)]).getD 0 ⟨none, []⟩).readings.getD 0 none).map
          (fun v => v / 1000) :=
  (concentration_scaling [⟨some 0, [none, some 2000]⟩] 0 0 (by simp) (by simp)).1

/-! ### Calendar dates and `strftime` rendering

`date.strftime('%Y%m%d')` and
`dt.datetime.fromtimestamp(ts, dt.timezone.utc).strftime("%Y-%m-%dT%H:%M:%S")`
are modelled over epoch seconds with the standard civil-from-days algorithm
of the proleptic Gregorian calendar, and fields rendered as fixed-width
zero-padded decimal, exactly as the `%Y/%m/%d/%H/%M/%S` directives do for
the representable range (year ≤ 9999). -/

/-- The `(year, month, day)` of an epoch day (days since 1970-01-01, UTC),
by the standard civil-from-days algorithm shifted to era starts. -/
def civilFromDays (z : Nat) : Nat × Nat × Nat :=
  let zs := z + 719468
  let era := zs / 146097
  let doe := zs % 146097
  let yoe := (doe - doe / 1460 + doe / 36524 - doe / 146096) / 365
  let doy := doe - (365 * yoe + yoe / 4 - yoe / 100)
  let mp := (5 * doy + 2) / 153
  let d := doy - (153 * mp + 2) / 5 + 1
  let m := if mp < 10 then mp + 3 else mp - 9
  let y := if m ≤ 2 then yoe + era * 400 + 1 else yoe + era * 400
  (y, m, d)

/-- The epoch day of a `(year, month, day)` civil date: the inverse of
`civilFromDays` on dates at or after the epoch. -/
def daysFromCivil (y m d : Nat) : Nat :=
  let ys := if m ≤ 2 then y - 1 else y
  let era := ys / 400
  let yoe := ys % 400
  let mp := if 2 < m then m - 3 else m + 9
  let doy := (153 * mp + 2) / 5 + d - 1
  let doe := yoe * 365 + yoe / 4 - yoe / 100 + doy
  era * 146097 + doe - 719468

/-- The decimal digit character of `n % 10`. -/
def digitChar (n : Nat) : Char :=
  match n % 10 with
  | 0 => '0' | 1 => '1' | 2 => '2' | 3 => '3' | 4 => '4'
  | 5 => '5' | 6 => '6' | 7 => '7' | 8 => '8' | _ => '9'

/-- Two-digit zero-padded decimal rendering (`%m`, `%d`, `%H`, `%M`, `%S`). -/
def pad2 (n : Nat) : List Char :=
  [digitChar (n / 10), digitChar n]

/-- Four-digit zero-padded decimal rendering (`%Y` for years up to 9999). -/
def pad4 (n : Nat) : List Char :=
  [digitChar (n / 1000), digitChar (n / 100), digitChar (n / 10), digitChar n]

/-- The characters of `strftime('%Y%m%d')` of an epoch day. -/
def ymdChars (z : Nat) : List Char :=
  pad4 (civilFromDays z).1 ++ pad2 (civilFromDays z).2.1 ++ pad2 (civilFromDays z).2.2

/-- `date.strftime('%Y%m%d')`, the file-name date label of an epoch day. -/
def fmtYmd (z : Nat) : String :=
  String.mk (ymdChars z)

/-- The characters of
`datetime.fromtimestamp(ts, utc).strftime("%Y-%m-%dT%H:%M:%S")`. -/
def dateTimeChars (ts : Nat) : List Char :=
  let z := ts / 86400
  let s := ts % 86400
  pad4 (civilFromDays z).1 ++ ['-'] ++ pad2 (civilFromDays z).2.1 ++ ['-']
    ++ pad2 (civilFromDays z).2.2 ++ ['T'] ++ pad2 (s / 3600) ++ [':']
    ++ pad2 (s % 3600 / 60) ++ [':'] ++ pad2 (s % 60)

/-- The coverage-attribute timestamp rendering of line 75/79. -/
def fmtDateTime (ts : Nat) : String :=
  String.mk (dateTimeChars ts)

theorem digitChar_isDigit (n : Nat) : (digitChar n).isDigit = true := by
  unfold digitChar
  split <;> decide

theorem digitChar_ne_of_not_digit {c : Char} (n : Nat) (hc : c.isDigit = false) :
    digitChar n ≠ c := by
  intro h
  rw [← h] at hc
  rw [digitChar_isDigit n] at hc
  cases hc

/-- The name the writing library gives a day's file (lines 97, 101):
instrument, default platform `mobile`, date label, product, version. -/
def initialFileName (d : Nat) : String :=
  "ncas-opc-1_mobile_" ++ fmtYmd d ++ "_aerosol-size-distribution_v1.0.nc"

/-- The name after the final rename (line 102): the platform segment is
`kiva-2-lab`, everything else unchanged. -/
def outputFileName (d : Nat) : String :=
  "ncas-opc-1_kiva-2-lab_" ++ fmtYmd d ++ "_aerosol-size-distribution_v1.0.nc"

/-- The names of the files the run produces: one per distinct date of the
retained rows, in order of first appearance (the loop of line 29). -/
def outputFileNames (input : List Row) : List String :=
  (dayDates (loadRows input)).map (fun d => outputFileName d)

/-- C5: the run produces one output file per distinct UTC calendar date of
the rows that survive the two drop passes — the date keys are exactly the
dates occurring among retained rows, without repetition, and each file's
name embeds that date's label.  (The hypothesis restricts to inputs whose
retained rows all carry a timestamp, the domain on which `Series.unique()`
is modelled by `uniques ∘ filterMap`.) -/
theorem output_files_per_day (input : List Row)
    (hts : ∀ r ∈ loadRows input, (r.timestamp).isSome = true) :
    (∀ d, d ∈ dayDates (loadRows input) ↔
      ∃ r ∈ loadRows input, rowDate r = some d) ∧
    (dayDates (loadRows input)).Nodup ∧
    (∀ s, s ∈ outputFileNames input ↔
      ∃ d, (∃ r ∈ loadRows input, rowDate r = some d) ∧ s = outputFileName d) := by
  have hmem : ∀ d, d ∈ dayDates (loadRows input) ↔
      ∃ r ∈ loadRows input, rowDate r = some d := by
    intro d
    rw [dayDates, mem_uniques, List.mem_filterMap]
  refine ⟨hmem, nodup_uniques _, ?_⟩
  intro s
  simp only [outputFileNames, List.mem_map]
  constructor
  · rintro ⟨d, hd, rfl⟩
    exact ⟨d, (hmem d).mp hd, rfl⟩
  · rintro ⟨d, hd, rfl⟩
    exact ⟨d, (hmem d).mpr hd, rfl⟩

/-- Witness for `output_files_per_day`: two retained rows on distinct days
give duplicate-free date keys. -/
theorem output_files_per_day_witness :
    (dayDates (loadRows [⟨some 0, [some 1]⟩, ⟨some 86400, [some 1]⟩])).Nodup :=
  (output_files_per_day [⟨some 0, [some 1]⟩, ⟨some 86400, [some 1]⟩]
    (by decide)).2.1

/-! ### The netCDF file's global attributes and the per-day finalization

The writing library is modelled by its attribute dictionary: `setncattr`
replaces or adds a key, `delncattr` removes a key and fails (raises) when
the key is absent, as `netCDF4.Dataset.delncattr` does. -/

/-- A netCDF file's global-attribute dictionary. -/
structure NCFile where
  attrs : List (String × String)
deriving DecidableEq, Repr

/-- Whether a global attribute with this name is present. -/
def hasAttr (f : NCFile) (name : String) : Bool :=
  f.attrs.any (fun p => p.1 == name)

/-- The value of a global attribute, `none` when absent. -/
def getAttr (f : NCFile) (name : String) : Option String :=
  (f.attrs.find? (fun p => p.1 == name)).map (fun p => p.2)

/-- `nc_file.setncattr(name, val)`: replace or add the attribute. -/
def setncattr (f : NCFile) (name val : String) : NCFile :=
  ⟨f.attrs.filter (fun p => !(p.1 == name)) ++ [(name, val)]⟩

/-- `nc_file.delncattr(name)`: remove the attribute; `none` models the
exception raised when the attribute does not exist. -/
def delncattr (f : NCFile) (name : String) : Option NCFile :=
  if hasAttr f name then some ⟨f.attrs.filter (fun p => !(p.1 == name))⟩
  else none

/-- `nant.util.add_metadata_to_netcdf` (line 83): the side file's key/value
pairs applied as attribute writes, in order. -/
def addMetadata (f : NCFile) (meta : List (String × String)) : NCFile :=
  meta.foldl (fun g kv => setncattr g kv.1 kv.2) f

/-- Modelled from the spec: `nant.util.get_times` is not part of this
repository's sources; per §4.3 it returns "the epoch seconds of the first
and last row (coverage bounds)".  The first row's epoch seconds. -/
def time_coverage_start_unix (tss : List Nat) : Nat :=
  tss.headD 0

/-- Modelled from the spec: the last row's epoch seconds returned by
`nant.util.get_times` (§4.3). -/
def time_coverage_end_unix (tss : List Nat) : Nat :=
  tss.getLastD 0

/-- The attribute writes of lines 70–83 in source order: geospatial bounds,
the two coverage attributes, then the metadata merge. -/
def setDayAttrs (f : NCFile) (tss : List Nat) (meta : List (String × String)) : NCFile :=
  let f1 := setncattr f "geospatial_bounds" "33.9913N, -107.1880E"
  let f2 := setncattr f1 "time_coverage_start"
    (fmtDateTime (time_coverage_start_unix tss))
  let f3 := setncattr f2 "time_coverage_end"
    (fmtDateTime (time_coverage_end_unix tss))
  addMetadata f3 meta

/-- `attrs_to_delete` of line 89. -/
def attrs_to_delete : List String :=
  ["dma_inner_radius", "dma_outer_radius", "dma_length", "impactor_orifice_diameter"]

/-- The deletion loop of lines 90–91: sequential `delncattr` calls, aborting
at the first absent attribute. -/
def deleteAttrs : NCFile → List String → Option NCFile
  | f, [] => some f
  | f, a :: rest =>
    match delncattr f a with
    | none => none
    | some g => deleteAttrs g rest

/-- The externally visible steps of one day's processing, in source order. -/
inductive Step where
  | createFile | writeVariables | setAttributes | closeFile | stripEmpty | renameFile
deriving DecidableEq, Repr

/-- One day's attribute processing and finalization (lines 41–103): the
trace of steps reached, and — when the deletion loop succeeds — the
finalized attribute dictionary and the file's name after the rename.  A
deletion failure aborts the day before close, strip and rename. -/
def processDay (init : NCFile) (tss : List Nat) (meta : List (String × String))
    (d : Nat) : List Step × Option (NCFile × String) :=
  match deleteAttrs (setDayAttrs init tss meta) attrs_to_delete with
  | none => ([Step.createFile, Step.writeVariables, Step.setAttributes], none)
  | some f =>
    ([Step.createFile, Step.writeVariables, Step.setAttributes,
      Step.closeFile, Step.stripEmpty, Step.renameFile],
     some (f, outputFileName d))

/-- An initial attribute dictionary carrying the four DMA-geometry
attributes the template supplies for this product. -/
def dmaInit : NCFile :=
  ⟨[("dma_inner_radius", "0"), ("dma_outer_radius", "0"),
    ("dma_length", "0"), ("impactor_orifice_diameter", "0")]⟩

theorem find?_filter_of_imp {α} (p q : α → Bool) (l : List α)
    (h : ∀ x, p x = true → q x = true) :
    (l.filter q).find? p = l.find? p := by
  induction l with
  | nil => rfl
  | cons a l ih =>
      rw [List.filter_cons]
      by_cases hq : q a = true
      · rw [if_pos hq]
        cases hp : p a <;> simp [List.find?_cons, hp, ih]
      · have hp : p a = false := by
          cases hpa : p a
          · rfl
          · exact absurd (h a hpa) hq
        rw [if_neg hq, ih]
        simp [List.find?_cons, hp]

theorem getAttr_setncattr_self (f : NCFile) (n v : String) :
    getAttr (setncattr f n v) n = some v := by
  unfold getAttr setncattr
  rw [List.find?_append]
  have h1 : List.find? (fun p => p.1 == n)
      (f.attrs.filter (fun p => !(p.1 == n))) = none := by
    rw [List.find?_eq_none]
    intro x hx
    rw [List.mem_filter] at hx
    simp only [Bool.not_eq_eq_eq_not, Bool.not_true] at hx
    simp [hx.2]
  rw [h1]
  simp [List.find?_cons]

theorem getAttr_setncattr_ne (f : NCFile) {n nm : String} (h : nm ≠ n) (v : String) :
    getAttr (setncattr f nm v) n = getAttr f n := by
  unfold getAttr setncattr
  rw [List.find?_append]
  have h1 : List.find? (fun p => p.1 == n)
        (f.attrs.filter (fun p => !(p.1 == nm)))
      = List.find? (fun p => p.1 == n) f.attrs := by
    apply find?_filter_of_imp
    intro x hx
    rw [beq_iff_eq] at hx
    simp only [hx, Bool.not_eq_eq_eq_not, Bool.not_true, beq_eq_false_iff_ne]
    exact fun hc => h hc.symm
  rw [h1]
  cases hf : List.find? (fun p => p.1 == n) f.attrs with
  | none =>
      have : (nm == n) = false := by simp [h]
      simp [List.find?_cons, this]
  | some x => simp

theorem getAttr_addMetadata (meta : List (String × String)) (f : NCFile)
    (n : String) (h : ∀ kv ∈ meta, kv.1 ≠ n) :
    getAttr (addMetadata f meta) n = getAttr f n := by
  induction meta generalizing f with
  | nil => rfl
  | cons kv rest ih =>
      show getAttr (addMetadata (setncattr f kv.1 kv.2) rest) n = getAttr f n
      rw [ih _ (fun x hx => h x (List.mem_cons_of_mem kv hx))]
      exact getAttr_setncattr_ne f (h kv (List.mem_cons_self kv rest)) kv.2

theorem hasAttr_delncattr_self {f g : NCFile} {a : String}
    (h : delncattr f a = some g) : hasAttr g a = false := by
  unfold delncattr at h
  split at h
  · cases h
    simp only [hasAttr, List.any_eq_true, not_exists]
    rw [Bool.eq_false_iff]
    intro hc
    rw [List.any_eq_true] at hc
    obtain ⟨x, hx, hpx⟩ := hc
    rw [List.mem_filter] at hx
    simp only [Bool.not_eq_eq_eq_not, Bool.not_true] at hx
    rw [hx.2] at hpx
    cases hpx
  · cases h

theorem hasAttr_delncattr_absent {f g : NCFile} {a b : String}
    (h : delncattr f a = some g) (hb : hasAttr f b = false) :
    hasAttr g b = false := by
  unfold delncattr at h
  split at h
  · cases h
    rw [Bool.eq_false_iff]
    intro hc
    simp only [hasAttr, List.any_eq_true] at hc
    obtain ⟨x, hx, hpx⟩ := hc
    rw [List.mem_filter] at hx
    rw [Bool.eq_false_iff] at hb
    exact hb (by rw [hasAttr, List.any_eq_true]; exact ⟨x, hx.1, hpx⟩)
  · cases h

theorem getAttr_delncattr_ne {f g : NCFile} {a n : String}
    (h : delncattr f a = some g) (hn : n ≠ a) :
    getAttr g n = getAttr f n := by
  unfold delncattr at h
  split at h
  · cases h
    unfold getAttr
    rw [find?_filter_of_imp]
    intro x hx
    rw [beq_iff_eq] at hx
    simp [hx, hn]
  · cases h

theorem deleteAttrs_absent_preserved :
    ∀ (l : List String) (f g : NCFile) (b : String),
      deleteAttrs f l = some g → hasAttr f b = false → hasAttr g b = false := by
  intro l
  induction l with
  | nil =>
      intro f g b h hb
      cases h
      exact hb
  | cons a rest ih =>
      intro f g b h hb
      unfold deleteAttrs at h
      cases hd : delncattr f a with
      | none => rw [hd] at h; cases h
      | some f1 =>
          rw [hd] at h
          exact ih f1 g b h (hasAttr_delncattr_absent hd hb)

theorem getAttr_deleteAttrs :
    ∀ (l : List String) (f g : NCFile) (n : String),
      deleteAttrs f l = some g → n ∉ l → getAttr g n = getAttr f n := by
  intro l
  induction l with
  | nil =>
      intro f g n h _
      cases h
      rfl
  | cons a rest ih =>
      intro f g n h hn
      unfold deleteAttrs at h
      cases hd : delncattr f a with
      | none => rw [hd] at h; cases h
      | some f1 =>
          rw [hd] at h
          rw [ih f1 g n h (fun hc => hn (List.mem_cons_of_mem a hc))]
          exact getAttr_delncattr_ne hd (fun hc => hn (hc ▸ List.mem_cons_self a rest))

theorem deleteAttrs_removes :
    ∀ (l : List String) (f g : NCFile),
      deleteAttrs f l = some g → ∀ a ∈ l, hasAttr g a = false := by
  intro l
  induction l with
  | nil =>
      intro f g _ a ha
      cases ha
  | cons b rest ih =>
      intro f g h a ha
      unfold deleteAttrs at h
      cases hd : delncattr f b with
      | none => rw [hd] at h; cases h
      | some f1 =>
          rw [hd] at h
          rcases List.mem_cons.mp ha with rfl | hrest
          · exact deleteAttrs_absent_preserved rest f1 g a h
              (hasAttr_delncattr_self hd)
          · exact ih f1 g h a hrest

theorem deleteAttrs_fails :
    ∀ (l : List String) (f : NCFile) (a : String),
      a ∈ l → hasAttr f a = false → deleteAttrs f l = none := by
  intro l
  induction l with
  | nil =>
      intro f a ha
      cases ha
  | cons b rest ih =>
      intro f a ha hab
      rcases List.mem_cons.mp ha with rfl | hrest
      · unfold deleteAttrs delncattr
        rw [hab]
        rfl
      · unfold deleteAttrs
        cases hd : delncattr f b with
        | none => rfl
        | some f1 => exact ih f1 a hrest (hasAttr_delncattr_absent hd hab)

theorem deleteAttrs_success_present {l : List String} {f g : NCFile}
    (h : deleteAttrs f l = some g) : ∀ a ∈ l, hasAttr f a = true := by
  intro a ha
  cases hb : hasAttr f a with
  | false => rw [deleteAttrs_fails l f a ha hb] at h; cases h
  | true => rfl

theorem sorted_headD_le (l : List Nat) (hs : List.Sorted (· ≤ ·) l) :
    ∀ x ∈ l, l.headD 0 ≤ x := by
  cases l with
  | nil => intro x hx; cases hx
  | cons a t =>
      intro x hx
      rcases List.mem_cons.mp hx with rfl | hxt
      · exact le_refl x
      · exact (List.sorted_cons.mp hs).1 x hxt

theorem getLastD_irrel {α} (l : List α) (a b : α) (h : l ≠ []) :
    l.getLastD a = l.getLastD b := by
  cases l with
  | nil => exact absurd rfl h
  | cons c u => rw [List.getLastD_cons, List.getLastD_cons]

theorem sorted_le_getLastD (l : List Nat) (hs : List.Sorted (· ≤ ·) l) :
    ∀ x ∈ l, x ≤ l.getLastD 0 := by
  induction l with
  | nil => intro x hx; cases hx
  | cons a t ih =>
      intro x hx
      rcases List.mem_cons.mp hx with rfl | hxt
      · cases t with
        | nil => exact le_refl x
        | cons b u =>
            have hst := (List.sorted_cons.mp hs).2
            have hab : x ≤ b := (List.sorted_cons.mp hs).1 b (List.mem_cons_self b u)
            have hb := ih hst b (List.mem_cons_self b u)
            exact le_trans hab hb
      · have ht : t ≠ [] := List.ne_nil_of_mem hxt
        have := ih (List.sorted_cons.mp hs).2 x hxt
        calc x ≤ t.getLastD 0 := this
          _ = t.getLastD a := getLastD_irrel t 0 a ht
          _ = (a :: t).getLastD 0 := (List.getLastD_cons 0 a t).symm

/-- The rendered timestamp always has the 19-character shape
`YYYY-MM-DDTHH:MM:SS`: length 19, `T` at position 10, and every character a
decimal digit or one of the three separators — in particular no fractional
second (`.`) and no timezone suffix letter (`Z`). -/
theorem dateTimeChars_shape (ts : Nat) :
    (dateTimeChars ts).length = 19 ∧
    (dateTimeChars ts).getD 10 ' ' = 'T' ∧
    ∀ c ∈ dateTimeChars ts, c.isDigit = true ∨ c = '-' ∨ c = ':' ∨ c = 'T' := by
  have hpad2 : ∀ (n : Nat) (c : Char), c ∈ pad2 n → c.isDigit = true := by
    intro n c hcm
    simp only [pad2, List.mem_cons, List.not_mem_nil, or_false] at hcm
    rcases hcm with rfl | rfl <;> exact digitChar_isDigit _
  have hpad4 : ∀ (n : Nat) (c : Char), c ∈ pad4 n → c.isDigit = true := by
    intro n c hcm
    simp only [pad4, List.mem_cons, List.not_mem_nil, or_false] at hcm
    rcases hcm with rfl | rfl | rfl | rfl <;> exact digitChar_isDigit _
  refine ⟨rfl, rfl, ?_⟩
  intro c hc
  simp only [dateTimeChars, List.mem_append] at hc
  rcases hc with (((((((((h|h)|h)|h)|h)|h)|h)|h)|h)|h)|h
  · exact Or.inl (hpad4 _ _ h)
  · rw [List.mem_singleton] at h; subst h; right; left; rfl
  · exact Or.inl (hpad2 _ _ h)
  · rw [List.mem_singleton] at h; subst h; right; left; rfl
  · exact Or.inl (hpad2 _ _ h)
  · rw [List.mem_singleton] at h; subst h; right; right; right; rfl
  · exact Or.inl (hpad2 _ _ h)
  · rw [List.mem_singleton] at h; subst h; right; right; left; rfl
  · exact Or.inl (hpad2 _ _ h)
  · rw [List.mem_singleton] at h; subst h; right; right; left; rfl
  · exact Or.inl (hpad2 _ _ h)

theorem dateTimeChars_no_suffix (ts : Nat) :
    ∀ c ∈ dateTimeChars ts, c ≠ 'Z' ∧ c ≠ '.' := by
  intro c hc
  rcases (dateTimeChars_shape ts).2.2 c hc with hd | h | h | h
  · constructor <;> intro hcc <;> rw [hcc] at hd <;> exact absurd hd (by decide)
  · rw [h]; exact ⟨by decide, by decide⟩
  · rw [h]; exact ⟨by decide, by decide⟩
  · rw [h]; exact ⟨by decide, by decide⟩

/-- C6 as amended: in every finalized day file, `time_coverage_start` and
`time_coverage_end` hold the renderings of the epoch seconds of the day's
FIRST and LAST retained row (the coverage bounds `nant.util.get_times`
returns per §4.3) — which are the minimum and maximum whenever the day's
rows are in chronological order — rendered as the 19-character pattern
`YYYY-MM-DDTHH:MM:SS`, with no fractional second and no timezone suffix
letter.  The metadata merge is assumed not to collide with the two
attribute names (§4.5: collisions "not expected and not defensively
handled"). -/
theorem coverage_attributes (init : NCFile) (tss : List Nat)
    (meta : List (String × String)) (d : Nat) (f : NCFile) (name : String)
    (hmeta : ∀ kv ∈ meta,
      kv.1 ≠ "time_coverage_start" ∧ kv.1 ≠ "time_coverage_end")
    (hrun : (processDay init tss meta d).2 = some (f, name)) :
    getAttr f "time_coverage_start"
      = some (fmtDateTime (time_coverage_start_unix tss)) ∧
    getAttr f "time_coverage_end"
      = some (fmtDateTime (time_coverage_end_unix tss)) ∧
    (List.Sorted (· ≤ ·) tss → ∀ x ∈ tss,
      time_coverage_start_unix tss ≤ x ∧ x ≤ time_coverage_end_unix tss) ∧
    (dateTimeChars (time_coverage_start_unix tss)).length = 19 ∧
    (dateTimeChars (time_coverage_start_unix tss)).getD 10 ' ' = 'T' ∧
    (∀ c ∈ dateTimeChars (time_coverage_start_unix tss), c ≠ 'Z' ∧ c ≠ '.') ∧
    (∀ c ∈ dateTimeChars (time_coverage_end_unix tss), c ≠ 'Z' ∧ c ≠ '.') := by
  have hdel : ∃ g, deleteAttrs (setDayAttrs init tss meta) attrs_to_delete
      = some g ∧ g = f := by
    cases hd : deleteAttrs (setDayAttrs init tss meta) attrs_to_delete with
    | none => simp only [processDay, hd] at hrun; cases hrun
    | some g =>
        simp only [processDay, hd, Option.some.injEq, Prod.mk.injEq] at hrun
        exact ⟨g, rfl, hrun.1⟩
  obtain ⟨g, hg, rfl⟩ := hdel
  have hstart : getAttr g "time_coverage_start"
      = some (fmtDateTime (time_coverage_start_unix tss)) := by
    rw [getAttr_deleteAttrs attrs_to_delete _ g _ hg (by decide)]
    rw [setDayAttrs]
    rw [getAttr_addMetadata meta _ _ (fun kv hkv => (hmeta kv hkv).1)]
    rw [getAttr_setncattr_ne _ (by decide)]
    exact getAttr_setncattr_self _ _ _
  have hend : getAttr g "time_coverage_end"
      = some (fmtDateTime (time_coverage_end_unix tss)) := by
    rw [getAttr_deleteAttrs attrs_to_delete _ g _ hg (by decide)]
    rw [setDayAttrs]
    rw [getAttr_addMetadata meta _ _ (fun kv hkv => (hmeta kv hkv).2)]
    exact getAttr_setncattr_self _ _ _
  refine ⟨hstart, hend, ?_, (dateTimeChars_shape _).1, (dateTimeChars_shape _).2.1,
    dateTimeChars_no_suffix _, dateTimeChars_no_suffix _⟩
  intro hsort x hx
  exact ⟨sorted_headD_le tss hsort x hx, sorted_le_getLastD tss hsort x hx⟩

/-- Witness for `coverage_attributes` at a concrete day run. -/
theorem coverage_attributes_witness :
    getAttr ((processDay dmaInit [0, 60] [] 0).2.getD (⟨[]⟩, "")).1
        "time_coverage_start"
      = some (fmtDateTime (time_coverage_start_unix [0, 60])) :=
  (coverage_attributes dmaInit [0, 60] [] 0
    ((processDay dmaInit [0, 60] [] 0).2.getD (⟨[]⟩, "")).1
    ((processDay dmaInit [0, 60] [] 0).2.getD (⟨[]⟩, "")).2
    (by simp) (by decide)).1

/-- Counterexample to C6 as stated: for the day group whose retained rows
have timestamps `[120, 60]` (unsorted within the day), the finalized
`time_coverage_start` attribute is the rendering of the FIRST row's
timestamp (120), not of the day's minimum timestamp (60). -/
theorem coverage_attributes_counterexample :
    ((processDay dmaInit [120, 60] [] 0).2.map
        (fun fr => getAttr fr.1 "time_coverage_start")).getD none
      ≠ some (fmtDateTime 60) := by decide

/-- C7: on a successful day run, the produced file's final name is the
`{instrument}_{platform}_{YYYYMMDD}_aerosol-size-distribution_v1.0.nc`
pattern with platform `kiva-2-lab`; the pre-rename name is the same pattern
with the default platform `mobile` (only that segment differs); and the
rename step happens after the close and strip-empty-variables steps. -/
theorem platform_rename (init : NCFile) (tss : List Nat)
    (meta : List (String × String)) (d : Nat) (f : NCFile) (name : String)
    (hrun : (processDay init tss meta d).2 = some (f, name)) :
    name = outputFileName d ∧
    initialFileName d
      = "ncas-opc-1_" ++ "mobile"
        ++ ("_" ++ fmtYmd d ++ "_aerosol-size-distribution_v1.0.nc") ∧
    outputFileName d
      = "ncas-opc-1_" ++ "kiva-2-lab"
        ++ ("_" ++ fmtYmd d ++ "_aerosol-size-distribution_v1.0.nc") ∧
    (processDay init tss meta d).1
      = [Step.createFile, Step.writeVariables, Step.setAttributes,
         Step.closeFile, Step.stripEmpty, Step.renameFile] ∧
    ((processDay init tss meta d).1.indexOf Step.closeFile
        < (processDay init tss meta d).1.indexOf Step.stripEmpty ∧
      (processDay init tss meta d).1.indexOf Step.stripEmpty
        < (processDay init tss meta d).1.indexOf Step.renameFile) := by
  have hmob : ("ncas-opc-1_" ++ "mobile" ++ "_") = "ncas-opc-1_mobile_" := by
    decide
  have hkiva : ("ncas-opc-1_" ++ "kiva-2-lab" ++ "_") = "ncas-opc-1_kiva-2-lab_" := by
    decide
  cases hd : deleteAttrs (setDayAttrs init tss meta) attrs_to_delete with
  | none => simp only [processDay, hd] at hrun; cases hrun
  | some g =>
      simp only [processDay, hd, Option.some.injEq, Prod.mk.injEq] at hrun
      refine ⟨hrun.2.symm, ?_, ?_, by simp [processDay, hd], by simp [processDay, hd]⟩
      · rw [initialFileName, ← hmob]
        simp only [String.append_assoc]
      · rw [outputFileName, ← hkiva]
        simp only [String.append_assoc]

/-- Witness for `platform_rename` at a concrete day run. -/
theorem platform_rename_witness :
    ((processDay dmaInit [0] [] 0).2.getD (⟨[]⟩, "")).2 = outputFileName 0 :=
  (platform_rename dmaInit [0] [] 0
    ((processDay dmaInit [0] [] 0).2.getD (⟨[]⟩, "")).1
    ((processDay dmaInit [0] [] 0).2.getD (⟨[]⟩, "")).2
    (by decide)).1

/-- C8: in every finalized output, none of the four DMA-geometry global
attributes is present — each was deleted before the file was closed. -/
theorem dma_attrs_absent (init : NCFile) (tss : List Nat)
    (meta : List (String × String)) (d : Nat) (f : NCFile) (name : String)
    (hrun : (processDay init tss meta d).2 = some (f, name)) :
    ∀ a ∈ attrs_to_delete, hasAttr f a = false := by
  cases hd : deleteAttrs (setDayAttrs init tss meta) attrs_to_delete with
  | none => simp only [processDay, hd] at hrun; cases hrun
  | some g =>
      simp only [processDay, hd, Option.some.injEq, Prod.mk.injEq] at hrun
      rw [← hrun.1]
      exact deleteAttrs_removes attrs_to_delete _ g hd

/-- Witness for `dma_attrs_absent` at a concrete day run. -/
theorem dma_attrs_absent_witness :
    hasAttr ((processDay dmaInit [0] [] 0).2.getD (⟨[]⟩, "")).1 "dma_length"
      = false :=
  dma_attrs_absent dmaInit [0] [] 0
    ((processDay dmaInit [0] [] 0).2.getD (⟨[]⟩, "")).1
    ((processDay dmaInit [0] [] 0).2.getD (⟨[]⟩, "")).2
    (by decide) "dma_length" (by decide)

/-- C9: the deletion of the four DMA-geometry attributes is unconditional —
if any of them is absent when the deletion loop runs, the day's run aborts
with no close, strip or rename step; success therefore requires all four to
be present at that point. -/
theorem dma_deletion_unconditional (init : NCFile) (tss : List Nat)
    (meta : List (String × String)) (d : Nat) :
    ((∃ a ∈ attrs_to_delete, hasAttr (setDayAttrs init tss meta) a = false) →
      (processDay init tss meta d).2 = none ∧
      Step.closeFile ∉ (processDay init tss meta d).1 ∧
      Step.stripEmpty ∉ (processDay init tss meta d).1 ∧
      Step.renameFile ∉ (processDay init tss meta d).1) ∧
    (∀ f name, (processDay init tss meta d).2 = some (f, name) →
      ∀ a ∈ attrs_to_delete, hasAttr (setDayAttrs init tss meta) a = true) := by
  constructor
  · rintro ⟨a, ha, habs⟩
    have hfail : deleteAttrs (setDayAttrs init tss meta) attrs_to_delete = none :=
      deleteAttrs_fails attrs_to_delete _ a ha habs
    refine ⟨by simp [processDay, hfail], ?_, ?_, ?_⟩ <;>
      simp [processDay, hfail]
  · intro f name hrun
    cases hd : deleteAttrs (setDayAttrs init tss meta) attrs_to_delete with
    | none => simp only [processDay, hd] at hrun; cases hrun
    | some g => exact deleteAttrs_success_present hd

end ProcessOpc
